import Mathlib

/-!
Verification development for the `music-segmentation` repository.

The repository is a notebook that builds a music-segmentation pipeline:
a tempogram feature transform followed by exact multiple change-point
detection via dynamic programming over a kernel-based segment cost
(the `KernelCPD` engine of the external `ruptures` package), wrapped in
scikit-learn style estimators (`TempogramTransformer`,
`ChangePointDetector`).

The segmentation engine itself (cost model, similarity tables, the
dynamic program and its query interface) is not part of the repository
sources — the notebook only invokes it — so those parts are modelled
from the specification.  Real-valued arithmetic is modelled by `ℚ`.
The notebook-level Python code (`get_bkps`, `get_sum_of_cost`,
`TempogramTransformer`, `ChangePointDetector`) is embedded directly
from the source.
-/

namespace MusicSeg

/-- Modelled from the spec: error taxonomy of the segmentation engine
(§7), which is missing from the repository sources (the notebook only
invokes the external engine). -/
inductive SegError where
  | EmptySequence
  | DimensionMismatch
  | InvalidSegment
  | InfeasibleKMax
  | OutOfRange
  | NotFitted
deriving DecidableEq, Repr

/-- First (leftmost) minimiser of `f` on a list of candidate indices.
Modelled from the spec: the tie-break rule of the engine's dynamic
program (§4.3, "when multiple predecessors achieve the identical
minimal cost, the smallest predecessor index (earliest cut) is kept"),
missing from the repository sources. -/
def argminFirst (f : ℕ → ℚ) : List ℕ → Option ℕ
  | [] => none
  | x :: xs =>
    match argminFirst f xs with
    | none => some x
    | some y => if f y < f x then some y else some x

/-- Modelled from the spec: the valid predecessor cuts of position `t`
when the prefix `[0, t)` is split into `k + 1` segments (§4.3,
`valid_predecessors`): a previous cut `s` must leave room for `k`
segments of length ≥ `m` before it and one segment of length ≥ `m`
after it.  Missing from the repository sources. -/
def preds (m k t : ℕ) : List ℕ :=
  (List.range t).filter (fun s => decide (k * m ≤ s ∧ s + m ≤ t))

/-- Modelled from the spec: the dynamic-programming value `D[t][k]`
(§4.3), the minimal total cost of partitioning the prefix `[0, t)` into
`k + 1` segments, each of length ≥ `m`, for the segment-cost function
`c`.  Missing from the repository sources.  Infeasible cells (empty
predecessor set) default to `0`; all theorems guard feasibility. -/
def D (c : ℕ → ℕ → ℚ) (m : ℕ) : ℕ → ℕ → ℚ
  | t, 0 => c 0 t
  | t, k + 1 =>
    (argminFirst (fun s => D c m s k + c s t) (preds m (k + 1) t)).elim 0
      (fun s => D c m s k + c s t)

/-- Modelled from the spec: the backpointer `back[t][k]` of the dynamic
program (§4.3), the (smallest, by the tie-break rule) predecessor cut
achieving the minimum in the recurrence for `D[t][k]`.  Missing from
the repository sources. -/
def back (c : ℕ → ℕ → ℚ) (m t : ℕ) : ℕ → Option ℕ
  | 0 => none
  | k + 1 => argminFirst (fun s => D c m s k + c s t) (preds m (k + 1) t)

/-- Modelled from the spec: reconstruction of the optimal partition for
`k` breakpoints by walking the backpointers
`back[t][k] → back[s][k-1] → … → 0` and reversing (§4.3).  Missing from
the repository sources. -/
def backWalk (c : ℕ → ℕ → ℚ) (m : ℕ) : ℕ → ℕ → List ℕ
  | _, 0 => []
  | t, k + 1 =>
    (back c m t (k + 1)).elim [] (fun s => backWalk c m s k ++ [s])

/-- Total cost of the partition of `[a, t)` whose interior breakpoints
are the given list, under segment-cost `c`. -/
def segSumFrom (c : ℕ → ℕ → ℚ) : ℕ → List ℕ → ℕ → ℚ
  | a, [], t => c a t
  | a, b :: bs, t => c a b + segSumFrom c b bs t

/-- Modelled from the spec: `sum_of_costs` of a breakpoint list for the
whole sequence `[0, t)` (the quantity returned by the engine's
`cost.sum_of_costs`, which the notebook's `get_sum_of_cost` calls);
the engine is missing from the repository sources. -/
def segSum (c : ℕ → ℕ → ℚ) (t : ℕ) (bkps : List ℕ) : ℚ :=
  segSumFrom c 0 bkps t

/-! ### Lemmas about `argminFirst` -/

theorem argminFirst_eq_none {f : ℕ → ℚ} {l : List ℕ} :
    argminFirst f l = none ↔ l = [] := by
  induction l with
  | nil => simp [argminFirst]
  | cons x xs ih =>
    simp only [argminFirst]
    cases h : argminFirst f xs with
    | none => simp
    | some y =>
      constructor
      · intro hcontra
        by_cases hlt : f y < f x <;> simp [hlt] at hcontra
      · intro hcontra
        exact absurd hcontra (List.cons_ne_nil x xs)

theorem argminFirst_mem {f : ℕ → ℚ} {l : List ℕ} {a : ℕ}
    (h : argminFirst f l = some a) : a ∈ l := by
  induction l generalizing a with
  | nil => simp [argminFirst] at h
  | cons x xs ih =>
    simp only [argminFirst] at h
    cases h2 : argminFirst f xs with
    | none => rw [h2] at h; simp at h; simp [h]
    | some y =>
      rw [h2] at h
      by_cases hlt : f y < f x
      · simp [hlt] at h; subst h; exact List.mem_cons_of_mem x (ih h2)
      · simp [hlt] at h; simp [h]

theorem argminFirst_le {f : ℕ → ℚ} {l : List ℕ} {a : ℕ}
    (h : argminFirst f l = some a) : ∀ x ∈ l, f a ≤ f x := by
  induction l generalizing a with
  | nil => simp [argminFirst] at h
  | cons x xs ih =>
    simp only [argminFirst] at h
    cases h2 : argminFirst f xs with
    | none =>
      rw [h2] at h
      simp at h
      subst h
      intro z hz
      rcases List.mem_cons.mp hz with hz | hz
      · subst hz; exact le_refl _
      · exact absurd (argminFirst_eq_none.mp h2 ▸ hz) (List.not_mem_nil z)
    | some y =>
      rw [h2] at h
      by_cases hlt : f y < f x
      · simp [hlt] at h
        subst h
        intro z hz
        rcases List.mem_cons.mp hz with hz | hz
        · subst hz; exact le_of_lt hlt
        · exact ih h2 z hz
      · simp [hlt] at h
        subst h
        intro z hz
        rcases List.mem_cons.mp hz with hz | hz
        · subst hz; exact le_refl _
        · exact le_trans (not_lt.mp hlt) (ih h2 z hz)

theorem argminFirst_leftmost {f : ℕ → ℚ} {l : List ℕ} {a : ℕ}
    (hsorted : List.Pairwise (· < ·) l)
    (h : argminFirst f l = some a) : ∀ x ∈ l, f x ≤ f a → a ≤ x := by
  induction l generalizing a with
  | nil => simp [argminFirst] at h
  | cons x xs ih =>
    simp only [argminFirst] at h
    rcases List.pairwise_cons.mp hsorted with ⟨hx, hxs⟩
    cases h2 : argminFirst f xs with
    | none =>
      rw [h2] at h
      simp at h
      subst h
      intro z hz _
      rcases List.mem_cons.mp hz with hz | hz
      · subst hz; exact le_refl _
      · exact absurd (argminFirst_eq_none.mp h2 ▸ hz) (List.not_mem_nil z)
    | some y =>
      rw [h2] at h
      by_cases hlt : f y < f x
      · simp [hlt] at h
        subst h
        intro z hz hza
        rcases List.mem_cons.mp hz with hz | hz
        · subst hz; exact absurd (lt_of_lt_of_le hlt hza) (lt_irrefl _)
        · exact ih hxs h2 z hz hza
      · simp [hlt] at h
        subst h
        intro z hz _
        rcases List.mem_cons.mp hz with hz | hz
        · subst hz; exact le_refl _
        · exact le_of_lt (hx z hz)

/-! ### Lemmas about `preds` -/

theorem mem_preds {m k t s : ℕ} (hm : 1 ≤ m) :
    s ∈ preds m k t ↔ k * m ≤ s ∧ s + m ≤ t := by
  unfold preds
  rw [List.mem_filter]
  simp only [List.mem_range, decide_eq_true_eq]
  omega

theorem preds_sorted {m k t : ℕ} : List.Pairwise (· < ·) (preds m k t) :=
  (List.pairwise_lt_range t).filter _

theorem sub_mem_preds {m k t : ℕ} (hm : 1 ≤ m) (h : k * m + m ≤ t) :
    t - m ∈ preds m k t := by
  rw [mem_preds hm]
  constructor <;> omega

/-! ### Basic equations of the dynamic program -/

theorem D_zero (c : ℕ → ℕ → ℚ) (m t : ℕ) : D c m t 0 = c 0 t := rfl

theorem D_succ (c : ℕ → ℕ → ℚ) (m t k : ℕ) :
    D c m t (k + 1) =
      (back c m t (k + 1)).elim 0 (fun s => D c m s k + c s t) := rfl

theorem backWalk_zero (c : ℕ → ℕ → ℚ) (m t : ℕ) : backWalk c m t 0 = [] := rfl

theorem backWalk_succ (c : ℕ → ℕ → ℚ) (m t k : ℕ) :
    backWalk c m t (k + 1) =
      (back c m t (k + 1)).elim [] (fun s => backWalk c m s k ++ [s]) := rfl

theorem backWalk_succ_of_back {c : ℕ → ℕ → ℚ} {m t k s : ℕ}
    (h : back c m t (k + 1) = some s) :
    backWalk c m t (k + 1) = backWalk c m s k ++ [s] := by
  rw [backWalk_succ, h, Option.elim]

theorem D_succ_of_back {c : ℕ → ℕ → ℚ} {m t k s : ℕ}
    (h : back c m t (k + 1) = some s) :
    D c m t (k + 1) = D c m s k + c s t := by
  rw [D_succ, h, Option.elim]

/-- When the feasibility condition holds, the predecessor set is
non-empty and the backpointer exists. -/
theorem back_isSome {c : ℕ → ℕ → ℚ} {m t k : ℕ} (hm : 1 ≤ m)
    (hfeas : (k + 1) * m + m ≤ t) : ∃ s, back c m t (k + 1) = some s := by
  cases h : back c m t (k + 1) with
  | some s => exact ⟨s, rfl⟩
  | none =>
    exfalso
    have hmem : t - m ∈ preds m (k + 1) t := sub_mem_preds hm hfeas
    have : preds m (k + 1) t = [] := argminFirst_eq_none.mp h
    rw [this] at hmem
    exact List.not_mem_nil _ hmem

theorem back_mem_preds {c : ℕ → ℕ → ℚ} {m t k s : ℕ}
    (h : back c m t (k + 1) = some s) : s ∈ preds m (k + 1) t :=
  argminFirst_mem h

/-- Minimality of the dynamic-programming value: `D[t][k+1]` is at most
the value obtained from any valid predecessor cut. -/
theorem D_le_pred {c : ℕ → ℕ → ℚ} {m t k s : ℕ}
    (hs : s ∈ preds m (k + 1) t) :
    D c m t (k + 1) ≤ D c m s k + c s t := by
  cases h : back c m t (k + 1) with
  | none =>
    exfalso
    have : preds m (k + 1) t = [] := argminFirst_eq_none.mp h
    rw [this] at hs
    exact List.not_mem_nil _ hs
  | some a =>
    rw [D_succ_of_back h]
    exact argminFirst_le h s hs

theorem segSumFrom_append (c : ℕ → ℕ → ℚ) (t : ℕ) :
    ∀ (l : List ℕ) (a b : ℕ),
      segSumFrom c a (l ++ [b]) t = segSumFrom c a l b + c b t := by
  intro l
  induction l with
  | nil => intro a b; rfl
  | cons x xs ihl =>
    intro a b
    simp only [List.cons_append, segSumFrom, List.append_eq, ihl, add_assoc]

/-- Achievability: the partition reconstructed from the backpointers
realizes exactly the dynamic-programming value. -/
theorem segSum_backWalk (c : ℕ → ℕ → ℚ) {m : ℕ} (hm : 1 ≤ m) :
    ∀ k t, (k + 1) * m ≤ t → segSum c t (backWalk c m t k) = D c m t k := by
  intro k
  induction k with
  | zero => intro t _; rfl
  | succ k ih =>
    intro t hfeas
    rw [add_mul, one_mul] at hfeas
    obtain ⟨s, hs⟩ := back_isSome hm (by omega : (k + 1) * m + m ≤ t)
    have hsp := back_mem_preds hs
    rw [mem_preds hm] at hsp
    rw [backWalk_succ_of_back hs, D_succ_of_back hs]
    unfold segSum
    rw [segSumFrom_append]
    have hseg := ih s hsp.1
    unfold segSum at hseg
    rw [hseg]

/-! ### Validity of the reconstructed partition -/

/-- The boundary chain invariant: the reconstructed breakpoints,
sandwiched between the boundaries `0` and `t`, form a chain of gaps of
at least `m`, and there are exactly `k` of them. -/
theorem backWalk_chain (c : ℕ → ℕ → ℚ) {m : ℕ} (hm : 1 ≤ m) :
    ∀ k t, (k + 1) * m ≤ t →
      (backWalk c m t k).length = k ∧
      List.Chain' (fun a b => a + m ≤ b) (0 :: (backWalk c m t k ++ [t])) := by
  intro k
  induction k with
  | zero =>
    intro t hfeas
    rw [zero_add, one_mul] at hfeas
    refine ⟨rfl, ?_⟩
    rw [backWalk_zero, List.nil_append]
    exact List.chain'_pair.mpr (by omega)
  | succ k ih =>
    intro t hfeas
    rw [add_mul, one_mul] at hfeas
    obtain ⟨s, hs⟩ := back_isSome hm (by omega : (k + 1) * m + m ≤ t)
    have hsp := back_mem_preds hs
    rw [mem_preds hm] at hsp
    obtain ⟨ihlen, ihchain⟩ := ih s hsp.1
    rw [backWalk_succ_of_back hs]
    constructor
    · simp [ihlen]
    · have hrw : (0 : ℕ) :: (backWalk c m s k ++ [s] ++ [t]) =
          (0 :: (backWalk c m s k ++ [s])) ++ [t] := by simp
      rw [hrw]
      apply List.Chain'.append ihchain (List.chain'_singleton t)
      intro x hx y hy
      have hxlast : x = s := by
        rw [show (0 : ℕ) :: (backWalk c m s k ++ [s]) =
              (0 :: backWalk c m s k) ++ [s] by simp] at hx
        rw [List.getLast?_concat] at hx
        exact (Option.mem_some_iff.mp hx).symm
      have hyt : y = t := by
        simp only [List.head?_cons, Option.mem_some_iff] at hy
        exact hy.symm
      subst hxlast hyt
      exact hsp.2

/-- Derived validity properties of the reconstructed partition:
exactly `k` breakpoints, strictly increasing, strictly inside `(0, t)`,
all induced segments of length ≥ `m`. -/
theorem backWalk_props (c : ℕ → ℕ → ℚ) {m k t : ℕ} (hm : 1 ≤ m)
    (hfeas : (k + 1) * m ≤ t) :
    (backWalk c m t k).length = k ∧
    List.Chain' (· < ·) (backWalk c m t k) ∧
    (∀ b ∈ backWalk c m t k, 0 < b ∧ b < t) ∧
    List.Chain' (fun a b => a + m ≤ b) (0 :: (backWalk c m t k ++ [t])) := by
  obtain ⟨hlen, hchain⟩ := backWalk_chain c hm k t hfeas
  have hlt : List.Chain' (· < ·) (0 :: (backWalk c m t k ++ [t])) :=
    hchain.imp (fun hab => by omega)
  have hpw : List.Pairwise (· < ·) (0 :: (backWalk c m t k ++ [t])) :=
    List.chain'_iff_pairwise.mp hlt
  rw [List.pairwise_cons] at hpw
  obtain ⟨h0, hrest⟩ := hpw
  rw [List.pairwise_append] at hrest
  obtain ⟨hbw, _, hcross⟩ := hrest
  refine ⟨hlen, List.chain'_iff_pairwise.mpr hbw, ?_, hchain⟩
  intro b hb
  exact ⟨h0 b (List.mem_append_left _ hb),
    hcross b hb t (List.mem_singleton_self t)⟩

/-! ### Monotonicity of the optimal cost in the number of breakpoints
(for minimum segment length 1 and a cost that never increases under
splitting a segment) -/

theorem D_mono (c : ℕ → ℕ → ℚ)
    (hsub : ∀ a b e : ℕ, a ≤ b → b ≤ e → c a b + c b e ≤ c a e) :
    ∀ k t, k + 2 ≤ t → D c 1 t (k + 1) ≤ D c 1 t k := by
  intro k
  induction k with
  | zero =>
    intro t ht
    have h1 : (1 : ℕ) ∈ preds 1 1 t := by
      rw [mem_preds le_rfl]; omega
    have h2 : D c 1 t 1 ≤ D c 1 1 0 + c 1 t := D_le_pred h1
    rw [D_zero] at h2 ⊢
    exact le_trans h2 (hsub 0 1 t (by omega) (by omega))
  | succ k ih =>
    intro t ht
    obtain ⟨s, hs⟩ := back_isSome le_rfl (by omega : (k + 1) * 1 + 1 ≤ t)
    have hsp := back_mem_preds hs
    rw [mem_preds le_rfl] at hsp
    have hval : D c 1 t (k + 1) = D c 1 s k + c s t := D_succ_of_back hs
    by_cases hcase : k + 2 ≤ s
    · have hmem : s ∈ preds 1 (k + 2) t := by
        rw [mem_preds le_rfl]; omega
      have h1 : D c 1 t (k + 2) ≤ D c 1 s (k + 1) + c s t := D_le_pred hmem
      have h2 : D c 1 s (k + 1) ≤ D c 1 s k := ih s hcase
      rw [hval]
      linarith
    · have hse : s = k + 1 := by omega
      have hmem : s + 1 ∈ preds 1 (k + 2) t := by
        rw [mem_preds le_rfl]; omega
      have h1 : D c 1 t (k + 2) ≤ D c 1 (s + 1) (k + 1) + c (s + 1) t :=
        D_le_pred hmem
      have hmem2 : s ∈ preds 1 (k + 1) (s + 1) := by
        rw [mem_preds le_rfl]; omega
      have h2 : D c 1 (s + 1) (k + 1) ≤ D c 1 s k + c s (s + 1) :=
        D_le_pred hmem2
      have h3 : c s (s + 1) + c (s + 1) t ≤ c s t :=
        hsub s (s + 1) t (by omega) (by omega)
      rw [hval]
      linarith

/-! ### The fitted engine: eagerly computed tables and pure queries -/

/-- Modelled from the spec: the state of a fitted segmentation engine
(§3 CostTable, §4.3), missing from the repository sources.  The cost
table `dTable` and the backpointer table `backTable` are fully computed
at fit time and immutable afterwards; queries are pure lookups. -/
structure FittedEngine where
  n : ℕ
  kMax : ℕ
  minSize : ℕ
  dTable : List (List ℚ)
  backTable : List (List (Option ℕ))
deriving DecidableEq

/-- Modelled from the spec: construction of the fitted state (§4.3):
the full cost and backpointer tables for every breakpoint count
`0 ≤ k ≤ kMax` and every end position `0 ≤ t ≤ n`.  Missing from the
repository sources. -/
def mkEngine (c : ℕ → ℕ → ℚ) (m kM n : ℕ) : FittedEngine where
  n := n
  kMax := kM
  minSize := m
  dTable := (List.range (kM + 1)).map
    (fun k => (List.range (n + 1)).map (fun t => D c m t k))
  backTable := (List.range (kM + 1)).map
    (fun k => (List.range (n + 1)).map (fun t => back c m t k))

/-- Modelled from the spec: `fit` (§4.3, §7), missing from the
repository sources.  Fails with `EmptySequence` on an empty input and
with `InfeasibleKMax` when `kM + 1` segments of length ≥ `m` do not fit
in `n` observations; otherwise it builds the full tables. -/
def fitEngine (c : ℕ → ℕ → ℚ) (m kM n : ℕ) : Except SegError FittedEngine :=
  if n = 0 then .error .EmptySequence
  else if n < (kM + 1) * m then .error .InfeasibleKMax
  else .ok (mkEngine c m kM n)

/-- Modelled from the spec: `total_cost(k)` as a pure O(1) lookup in
the fitted cost table (§4.3, §4.4), missing from the repository
sources. -/
def getTotalCost (e : FittedEngine) (k : ℕ) : ℚ :=
  (e.dTable.getD k []).getD e.n 0

/-- Modelled from the spec: breakpoint reconstruction by walking the
stored backpointer table (§4.3), missing from the repository
sources. -/
def walkTable (e : FittedEngine) : ℕ → ℕ → List ℕ
  | _, 0 => []
  | t, k + 1 =>
    ((e.backTable.getD (k + 1) []).getD t none).elim []
      (fun s => walkTable e s k ++ [s])

/-- Modelled from the spec: `predict(k)` on a possibly unfitted engine
(§4.3, §7): `NotFitted` before `fit`, `OutOfRange` for `k` beyond the
fitted bound, otherwise the backpointer walk.  Missing from the
repository sources. -/
def predictE : Option FittedEngine → ℕ → Except SegError (List ℕ)
  | none, _ => .error .NotFitted
  | some e, k =>
    if e.kMax < k then .error .OutOfRange else .ok (walkTable e e.n k)

/-- Modelled from the spec: `total_cost(k)` on a possibly unfitted
engine (§4.3, §7).  Missing from the repository sources. -/
def totalCostE : Option FittedEngine → ℕ → Except SegError ℚ
  | none, _ => .error .NotFitted
  | some e, k =>
    if e.kMax < k then .error .OutOfRange else .ok (getTotalCost e k)

/-- The notebook's `get_sum_of_cost` (src cell `c6355000`, function
`get_sum_of_cost`): predict the breakpoints for `k` and return the sum
of segment costs over the induced partition. -/
def getSumOfCost (c : ℕ → ℕ → ℚ) (e : FittedEngine) (k : ℕ) : ℚ :=
  segSum c e.n (walkTable e e.n k)

/-! ### Table lookups agree with the recursive dynamic program -/

theorem range_map_getD {α : Type} (f : ℕ → α) (N i : ℕ) (d : α)
    (h : i < N) : ((List.range N).map f).getD i d = f i := by
  rw [List.getD_eq_getElem _ d (by simp [h])]
  simp

theorem dTable_lookup (c : ℕ → ℕ → ℚ) (m kM n : ℕ) {k t : ℕ}
    (hk : k ≤ kM) (ht : t ≤ n) :
    (((mkEngine c m kM n).dTable.getD k []).getD t 0) = D c m t k := by
  unfold mkEngine
  rw [range_map_getD _ _ _ _ (by omega)]
  rw [range_map_getD _ _ _ _ (by omega)]

theorem backTable_lookup (c : ℕ → ℕ → ℚ) (m kM n : ℕ) {k t : ℕ}
    (hk : k ≤ kM) (ht : t ≤ n) :
    (((mkEngine c m kM n).backTable.getD k []).getD t none) = back c m t k := by
  unfold mkEngine
  rw [range_map_getD _ _ _ _ (by omega)]
  rw [range_map_getD _ _ _ _ (by omega)]

theorem getTotalCost_eq (c : ℕ → ℕ → ℚ) (m kM n : ℕ) {k : ℕ}
    (hk : k ≤ kM) : getTotalCost (mkEngine c m kM n) k = D c m n k := by
  unfold getTotalCost
  rw [show (mkEngine c m kM n).n = n from rfl]
  exact dTable_lookup c m kM n hk le_rfl

theorem walkTable_eq (c : ℕ → ℕ → ℚ) (m kM n : ℕ) :
    ∀ k t, k ≤ kM → t ≤ n →
      walkTable (mkEngine c m kM n) t k = backWalk c m t k := by
  intro k
  induction k with
  | zero => intro t _ _; rfl
  | succ k ih =>
    intro t hk ht
    unfold walkTable
    rw [backTable_lookup c m kM n hk ht, backWalk_succ]
    cases hb : back c m t (k + 1) with
    | none => rfl
    | some s =>
      have hsmem := back_mem_preds hb
      have hst : s < t := by
        unfold preds at hsmem
        have := List.mem_range.mp (List.mem_of_mem_filter hsmem)
        exact this
      simp only [Option.elim]
      rw [ih s (by omega) (by omega)]

/-! ### The linear-kernel cost model -/

/-- Modelled from the spec: the linear kernel `K(x, y) = ⟨x, y⟩` (§4.1,
§6 configuration surface), missing from the repository sources. -/
def linKer (d : ℕ) (x y : Fin d → ℚ) : ℚ := ∑ i, x i * y i

/-- Modelled from the spec: the centered kernel segment cost (§4.1),
`cost(a,b) = Σ K(y_i,y_i) − (1/(b−a)) · ΣΣ K(y_i,y_j)` over the
half-open segment `[a, b)`, instantiated at the linear kernel (the
notebook configures `rpt.KernelCPD(kernel="linear")`).  Missing from
the repository sources. -/
def costLinear (d : ℕ) (y : ℕ → Fin d → ℚ) (a b : ℕ) : ℚ :=
  (∑ i in Finset.Ico a b, linKer d (y i) (y i)) -
    1 / ((b : ℚ) - (a : ℚ)) *
      ∑ i in Finset.Ico a b, ∑ j in Finset.Ico a b, linKer d (y i) (y j)

/-- The mean vector of the segment `[a, b)`. -/
def segMean (d : ℕ) (y : ℕ → Fin d → ℚ) (a b : ℕ) (i : Fin d) : ℚ :=
  (∑ t in Finset.Ico a b, y t i) / ((b : ℚ) - (a : ℚ))

/-- The classical sum of squared deviations of the segment's vectors
from the segment mean. -/
def ssd (d : ℕ) (y : ℕ → Fin d → ℚ) (a b : ℕ) : ℚ :=
  ∑ t in Finset.Ico a b, ∑ i, (y t i - segMean d y a b i) ^ 2

/-! ### Scalar quadratic-expansion lemmas -/

theorem sum_sq_expand (s : Finset ℕ) (f : ℕ → ℚ) (μ : ℚ) :
    ∑ x in s, (f x - μ) ^ 2 =
      ∑ x in s, f x ^ 2 - 2 * μ * (∑ x in s, f x) + (s.card : ℚ) * μ ^ 2 := by
  have h1 : ∑ x in s, (f x - μ) ^ 2 =
      ∑ x in s, (f x ^ 2 - 2 * μ * f x + μ ^ 2) :=
    Finset.sum_congr rfl (fun x _ => by ring)
  rw [h1, Finset.sum_add_distrib, Finset.sum_sub_distrib, ← Finset.mul_sum,
    Finset.sum_const, nsmul_eq_mul]

theorem sum_sq_dev (s : Finset ℕ) (f : ℕ → ℚ) (hs : s.Nonempty) :
    ∑ x in s, (f x - (∑ z in s, f z) / (s.card : ℚ)) ^ 2 =
      ∑ x in s, f x ^ 2 - (∑ z in s, f z) ^ 2 / (s.card : ℚ) := by
  have hM : ((s.card : ℚ)) ≠ 0 :=
    Nat.cast_ne_zero.mpr (Finset.card_pos.mpr hs).ne'
  rw [sum_sq_expand]
  field_simp
  ring

theorem sum_sq_dev_le (s : Finset ℕ) (f : ℕ → ℚ) (hs : s.Nonempty) (μ : ℚ) :
    ∑ x in s, (f x - (∑ z in s, f z) / (s.card : ℚ)) ^ 2 ≤
      ∑ x in s, (f x - μ) ^ 2 := by
  have hMpos : (0 : ℚ) < (s.card : ℚ) :=
    Nat.cast_pos.mpr (Finset.card_pos.mpr hs)
  rw [sum_sq_dev s f hs, sum_sq_expand]
  have hkey : (0 : ℚ) ≤ ((s.card : ℚ) * μ - ∑ z in s, f z) ^ 2 / (s.card : ℚ) :=
    div_nonneg (sq_nonneg _) hMpos.le
  have hexp : ((s.card : ℚ) * μ - ∑ z in s, f z) ^ 2 / (s.card : ℚ) =
      (s.card : ℚ) * μ ^ 2 - 2 * μ * (∑ z in s, f z) +
        (∑ z in s, f z) ^ 2 / (s.card : ℚ) := by
    field_simp
    ring
  linarith

/-! ### The centered kernel cost equals the sum of squared deviations -/

theorem ico_card_cast {a b : ℕ} (hab : a ≤ b) :
    (((Finset.Ico a b).card : ℚ)) = (b : ℚ) - (a : ℚ) := by
  rw [Nat.card_Ico, Nat.cast_sub hab]

theorem costLinear_coord (d : ℕ) (y : ℕ → Fin d → ℚ) (a b : ℕ) :
    costLinear d y a b =
      ∑ i : Fin d, ((∑ t in Finset.Ico a b, y t i ^ 2) -
        (∑ t in Finset.Ico a b, y t i) ^ 2 / ((b : ℚ) - (a : ℚ))) := by
  unfold costLinear linKer
  have hA : (∑ i in Finset.Ico a b, ∑ c : Fin d, y i c * y i c) =
      ∑ c : Fin d, ∑ t in Finset.Ico a b, y t c ^ 2 := by
    rw [Finset.sum_comm]
    exact Finset.sum_congr rfl fun c _ =>
      Finset.sum_congr rfl fun t _ => (pow_two (y t c)).symm
  have hB : (∑ i in Finset.Ico a b, ∑ j in Finset.Ico a b,
      ∑ c : Fin d, y i c * y j c) =
      ∑ c : Fin d, (∑ t in Finset.Ico a b, y t c) ^ 2 := by
    have h2 : (∑ i in Finset.Ico a b, ∑ j in Finset.Ico a b,
        ∑ c : Fin d, y i c * y j c) =
        ∑ i in Finset.Ico a b, ∑ c : Fin d, ∑ j in Finset.Ico a b,
          y i c * y j c :=
      Finset.sum_congr rfl fun i _ => Finset.sum_comm
    rw [h2, Finset.sum_comm]
    refine Finset.sum_congr rfl fun c _ => ?_
    rw [pow_two, Finset.sum_mul_sum]
  rw [hA, hB, Finset.mul_sum, ← Finset.sum_sub_distrib]
  exact Finset.sum_congr rfl fun c _ => by ring

theorem ssd_coord (d : ℕ) (y : ℕ → Fin d → ℚ) (a b : ℕ) :
    ssd d y a b =
      ∑ i : Fin d, ∑ t in Finset.Ico a b,
        (y t i - (∑ z in Finset.Ico a b, y z i) / ((b : ℚ) - (a : ℚ))) ^ 2 := by
  unfold ssd segMean
  exact Finset.sum_comm

/-- The linear-kernel centered cost of a non-empty segment equals the
sum of squared deviations from the segment mean. -/
theorem costLinear_eq_ssd (d : ℕ) (y : ℕ → Fin d → ℚ) {a b : ℕ}
    (hab : a < b) : costLinear d y a b = ssd d y a b := by
  rw [costLinear_coord, ssd_coord]
  refine Finset.sum_congr rfl (fun i _ => ?_)
  have hne : (Finset.Ico a b).Nonempty := Finset.nonempty_Ico.mpr hab
  have := sum_sq_dev (Finset.Ico a b) (fun t => y t i) hne
  rw [ico_card_cast hab.le] at this
  rw [this]

theorem costLinear_empty (d : ℕ) (y : ℕ → Fin d → ℚ) {a b : ℕ}
    (h : b ≤ a) : costLinear d y a b = 0 := by
  unfold costLinear
  rw [Finset.Ico_eq_empty (not_lt.mpr h)]
  simp

theorem ssd_le_shifted (d : ℕ) (y : ℕ → Fin d → ℚ) {a b : ℕ}
    (hab : a < b) (μ : Fin d → ℚ) :
    ssd d y a b ≤ ∑ t in Finset.Ico a b, ∑ i, (y t i - μ i) ^ 2 := by
  rw [ssd_coord]
  conv_rhs => rw [Finset.sum_comm]
  apply Finset.sum_le_sum
  intro i _
  have hne : (Finset.Ico a b).Nonempty := Finset.nonempty_Ico.mpr hab
  have h := sum_sq_dev_le (Finset.Ico a b) (fun t => y t i) hne (μ i)
  rw [ico_card_cast hab.le] at h
  exact h

/-- Splitting a segment never increases the linear-kernel cost: the
cost functional is subadditive under refinement. -/
theorem costLinear_subadd (d : ℕ) (y : ℕ → Fin d → ℚ) :
    ∀ a b e : ℕ, a ≤ b → b ≤ e →
      costLinear d y a b + costLinear d y b e ≤ costLinear d y a e := by
  intro a b e hab hbe
  rcases eq_or_lt_of_le hab with rfl | hab'
  · rw [costLinear_empty d y le_rfl, zero_add]
  · rcases eq_or_lt_of_le hbe with rfl | hbe'
    · rw [costLinear_empty d y le_rfl, add_zero]
    · have hae : a < e := lt_trans hab' hbe'
      rw [costLinear_eq_ssd d y hae, costLinear_eq_ssd d y hab',
        costLinear_eq_ssd d y hbe']
      have hsplit : ssd d y a e =
          (∑ t in Finset.Ico a b, ∑ i, (y t i - segMean d y a e i) ^ 2) +
            ∑ t in Finset.Ico b e, ∑ i, (y t i - segMean d y a e i) ^ 2 := by
        unfold ssd
        rw [← Finset.sum_Ico_consecutive _ hab hbe]
      rw [hsplit]
      exact add_le_add (ssd_le_shifted d y hab' _) (ssd_le_shifted d y hbe' _)

theorem ssd_nonneg (d : ℕ) (y : ℕ → Fin d → ℚ) (a b : ℕ) :
    0 ≤ ssd d y a b := by
  unfold ssd
  refine Finset.sum_nonneg fun t _ => Finset.sum_nonneg fun i _ => sq_nonneg _

theorem costLinear_nonneg (d : ℕ) (y : ℕ → Fin d → ℚ) (a b : ℕ) :
    0 ≤ costLinear d y a b := by
  rcases lt_or_ge a b with hab | hab
  · rw [costLinear_eq_ssd d y hab]
    exact ssd_nonneg d y a b
  · rw [costLinear_empty d y hab]

/-- A segment on which the signal is constant has zero linear-kernel
cost. -/
theorem costLinear_const (d : ℕ) (y : ℕ → Fin d → ℚ) {a b : ℕ}
    (v : Fin d → ℚ) (h : ∀ t, a ≤ t → t < b → ∀ i, y t i = v i) :
    costLinear d y a b = 0 := by
  rcases lt_or_ge a b with hab | hab
  · rw [costLinear_eq_ssd d y hab]
    unfold ssd
    refine Finset.sum_eq_zero fun t ht => Finset.sum_eq_zero fun i _ => ?_
    rw [Finset.mem_Ico] at ht
    have hmean : segMean d y a b i = v i := by
      have hsum : (∑ z in Finset.Ico a b, y z i) =
          ∑ z in Finset.Ico a b, v i := by
        refine Finset.sum_congr rfl fun z hz => ?_
        rw [Finset.mem_Ico] at hz
        exact h z hz.1 hz.2 i
      unfold segMean
      rw [hsum, Finset.sum_const, nsmul_eq_mul, ico_card_cast hab.le]
      have hne : (b : ℚ) - (a : ℚ) ≠ 0 := by
        have hcast : (a : ℚ) < (b : ℚ) := by exact_mod_cast hab
        linarith
      field_simp
    rw [h t ht.1 ht.2 i, hmean, sub_self]
    ring
  · rw [costLinear_empty d y hab]

theorem D_nonneg {c : ℕ → ℕ → ℚ} {m : ℕ} (hc : ∀ a b, 0 ≤ c a b) :
    ∀ k t, 0 ≤ D c m t k := by
  intro k
  induction k with
  | zero => intro t; rw [D_zero]; exact hc 0 t
  | succ k ih =>
    intro t
    cases hb : back c m t (k + 1) with
    | none => rw [D_succ, hb]; exact le_refl 0
    | some s => rw [D_succ_of_back hb]; exact add_nonneg (ih s) (hc s t)

/-! ### The notebook-level code (embedded from the source) -/

/-- A multivariate signal: `n` feature vectors of dimension `d`
(a numpy array of shape `(n, d)` with rational entries). -/
structure Sig where
  d : ℕ
  n : ℕ
  y : ℕ → Fin d → ℚ

/-- The notebook's `get_bkps` (source cell `c6355000`): build a fresh
linear-kernel engine, fit it on the signal, and predict `n_bkps`
breakpoints.  The engine itself is the spec-modelled one
(`fitEngine`/`predictE`); the minimum segment length is the spec's
default 1. -/
def getBkps (s : Sig) (nBkps : ℕ) : Except SegError (List ℕ) :=
  (fitEngine (costLinear s.d s.y) 1 nBkps s.n).bind
    (fun e => predictE (some e) nBkps)

/-- The notebook's `TempogramTransformer` (source cell `43ec63d9`):
holds only the tempogram hop length. -/
structure TempogramTransformer where
  hop_length_tempo : ℕ

/-- The notebook's `TempogramTransformer.fit`: "Nothing happens in the
.fit()" — it returns `self` unchanged. -/
def TempogramTransformer.fit (tr : TempogramTransformer)
    (X : Option (List Sig)) (y : Option (List ℚ)) : TempogramTransformer :=
  tr

/-- The notebook's `TempogramTransformer.transform`: loop over the
input signals, appending the tempogram of each to the output list.
The external `get_tempogram` (librosa feature extraction, out of the
core's scope) is abstracted as the function argument `g`, applied to
the configured hop length and the signal. -/
def TempogramTransformer.transform (g : ℕ → Sig → Sig)
    (tr : TempogramTransformer) (X : List Sig) : List Sig :=
  X.foldl (fun out s => out ++ [g tr.hop_length_tempo s]) []

/-- The notebook's `ChangePointDetector` (source cell `43ec63d9`):
holds only the configured number of breakpoints. -/
structure ChangePointDetector where
  n_bkps : ℕ

/-- The notebook's `ChangePointDetector.fit`: "Nothing happens in the
.fit()" — it returns `self` unchanged. -/
def ChangePointDetector.fit (det : ChangePointDetector)
    (X : Option (List Sig)) (y : Option (List ℚ)) : ChangePointDetector :=
  det

/-- The notebook's `ChangePointDetector.predict`: loop over the input
signals, appending the segmentation (`get_bkps` with the configured
`n_bkps`) of each to the output list. -/
def ChangePointDetector.predict (det : ChangePointDetector)
    (X : List Sig) : List (Except SegError (List ℕ)) :=
  X.foldl (fun out s => out ++ [getBkps s det.n_bkps]) []

theorem foldl_append_eq_map {α β : Type} (f : α → β) :
    ∀ (X : List α) (acc : List β),
      X.foldl (fun out s => out ++ [f s]) acc = acc ++ X.map f := by
  intro X
  induction X with
  | nil => intro acc; simp
  | cons x xs ih =>
    intro acc
    rw [List.foldl_cons, ih, List.map_cons]
    simp

theorem mkEngine_n (c : ℕ → ℕ → ℚ) (m kM n : ℕ) :
    (mkEngine c m kM n).n = n := rfl

theorem mkEngine_kMax (c : ℕ → ℕ → ℚ) (m kM n : ℕ) :
    (mkEngine c m kM n).kMax = kM := rfl

theorem fitEngine_ok (c : ℕ → ℕ → ℚ) {m kM n : ℕ} (hm : 1 ≤ m)
    (hfeas : (kM + 1) * m ≤ n) :
    fitEngine c m kM n = Except.ok (mkEngine c m kM n) := by
  have hn : 0 < n := lt_of_lt_of_le (Nat.mul_pos (Nat.succ_pos kM) hm) hfeas
  unfold fitEngine
  rw [if_neg (by omega), if_neg (not_lt.mpr hfeas)]

theorem predictE_ok (c : ℕ → ℕ → ℚ) {m kM n k : ℕ} (hk : k ≤ kM) :
    predictE (some (mkEngine c m kM n)) k =
      Except.ok (backWalk c m n k) := by
  show (if (mkEngine c m kM n).kMax < k then
      (Except.error SegError.OutOfRange : Except SegError (List ℕ))
    else Except.ok (walkTable (mkEngine c m kM n) (mkEngine c m kM n).n k)) = _
  rw [mkEngine_kMax, mkEngine_n, if_neg (not_lt.mpr hk),
    walkTable_eq c m kM n k n hk le_rfl]

theorem totalCostE_ok (c : ℕ → ℕ → ℚ) {m kM n k : ℕ} (hk : k ≤ kM) :
    totalCostE (some (mkEngine c m kM n)) k = Except.ok (D c m n k) := by
  show (if (mkEngine c m kM n).kMax < k then
      (Except.error SegError.OutOfRange : Except SegError ℚ)
    else Except.ok (getTotalCost (mkEngine c m kM n) k)) = _
  rw [mkEngine_kMax, if_neg (not_lt.mpr hk), getTotalCost_eq c m kM n hk]

/-! ### Concrete instances used by witnesses and counterexamples -/

/-- The identically-zero cost function (a concrete instance). -/
def czero : ℕ → ℕ → ℚ := fun _ _ => 0

/-- The identically-zero one-dimensional signal (a concrete
instance). -/
def zsig : ℕ → Fin 1 → ℚ := fun _ _ => 0

/-- A one-dimensional step signal: value 0 on frames 0–2 and value 1
from frame 3 on. -/
def yStep : ℕ → Fin 1 → ℚ := fun t _ => if t < 3 then 0 else 1

/-! ### The claims -/

/-- **C1 (counterexample).** The claim "for every valid fitted engine
and every `k < k_max`, `total_cost(k+1) ≤ total_cost(k)`" is false as
stated: with `min_segment_length = 2` (a valid configuration per the
spec) on the six-frame step signal `[0,0,0,1,1,1]` fitted with
`k_max = 2`, the optimal cost for 2 breakpoints (forced segmentation
`2+2+2`, cost `1/2`) exceeds the optimal cost for 1 breakpoint
(segmentation `3+3`, cost `0`). -/
theorem claim1_counterexample :
    fitEngine (costLinear 1 yStep) 2 2 6 =
      Except.ok (mkEngine (costLinear 1 yStep) 2 2 6) ∧
    ¬ (getTotalCost (mkEngine (costLinear 1 yStep) 2 2 6) 2 ≤
        getTotalCost (mkEngine (costLinear 1 yStep) 2 2 6) 1) := by
  constructor
  · rfl
  · have hc1 : getTotalCost (mkEngine (costLinear 1 yStep) 2 2 6) 1 = 0 := by
      rw [getTotalCost_eq _ _ _ _ (by omega : 1 ≤ 2)]
      refine le_antisymm ?_ (D_nonneg (costLinear_nonneg 1 yStep) 1 6)
      have h3 : (3 : ℕ) ∈ preds 2 (0 + 1) 6 := by decide
      have hle := D_le_pred (c := costLinear 1 yStep) h3
      rw [D_zero] at hle
      have hz1 : costLinear 1 yStep 0 3 = 0 :=
        costLinear_const 1 yStep (fun _ => 0) (fun t _ ht i => by
          simp only [yStep]
          rw [if_pos (by omega)])
      have hz2 : costLinear 1 yStep 3 6 = 0 :=
        costLinear_const 1 yStep (fun _ => 1) (fun t ht _ i => by
          simp only [yStep]
          rw [if_neg (by omega)])
      rw [hz1, hz2] at hle
      simpa using hle
    have hc2 : getTotalCost (mkEngine (costLinear 1 yStep) 2 2 6) 2 = 1 / 2 := by
      rw [getTotalCost_eq _ _ _ _ (le_refl 2)]
      have hb2 : back (costLinear 1 yStep) 2 6 2 = some 4 := by
        show argminFirst
            (fun s => D (costLinear 1 yStep) 2 s 1 + costLinear 1 yStep s 6)
            (preds 2 2 6) = some 4
        rw [show preds 2 2 6 = [4] from by decide]
        rfl
      have hb1 : back (costLinear 1 yStep) 2 4 1 = some 2 := by
        show argminFirst
            (fun s => D (costLinear 1 yStep) 2 s 0 + costLinear 1 yStep s 4)
            (preds 2 1 4) = some 2
        rw [show preds 2 1 4 = [2] from by decide]
        rfl
      rw [D_succ_of_back hb2, D_succ_of_back hb1, D_zero]
      have hz1 : costLinear 1 yStep 0 2 = 0 :=
        costLinear_const 1 yStep (fun _ => 0) (fun t _ ht i => by
          simp only [yStep]
          rw [if_pos (by omega)])
      have hz2 : costLinear 1 yStep 4 6 = 0 :=
        costLinear_const 1 yStep (fun _ => 1) (fun t ht _ i => by
          simp only [yStep]
          rw [if_neg (by omega)])
      have hmid : costLinear 1 yStep 2 4 = 1 / 2 := by
        have hico : Finset.Ico 2 4 = {2, 3} := by decide
        unfold costLinear linKer yStep
        rw [hico]
        simp [Finset.sum_insert, Finset.sum_singleton, Fin.sum_univ_one]
        norm_num
      rw [hz1, hz2, hmid]
      norm_num
    rw [hc1, hc2]
    norm_num

/-- **C1 (amended).** With the spec's default `min_segment_length = 1`
and the linear-kernel cost, the optimal total cost is monotonically
non-increasing in the number of breakpoints: for every fitted engine
and every `k` with `k + 1 ≤ k_max`,
`total_cost(k+1) ≤ total_cost(k)`; moreover `get_sum_of_cost` (the sum
of segment costs of the predicted partition) agrees with
`total_cost`. -/
theorem claim1_amended_monotone (d n kM k : ℕ) (y : ℕ → Fin d → ℚ)
    (hfeas : kM + 1 ≤ n) (hk : k + 1 ≤ kM) :
    fitEngine (costLinear d y) 1 kM n =
      Except.ok (mkEngine (costLinear d y) 1 kM n) ∧
    getTotalCost (mkEngine (costLinear d y) 1 kM n) (k + 1) ≤
      getTotalCost (mkEngine (costLinear d y) 1 kM n) k ∧
    getSumOfCost (costLinear d y) (mkEngine (costLinear d y) 1 kM n) (k + 1) =
      getTotalCost (mkEngine (costLinear d y) 1 kM n) (k + 1) := by
  have hfit : fitEngine (costLinear d y) 1 kM n =
      Except.ok (mkEngine (costLinear d y) 1 kM n) :=
    fitEngine_ok _ le_rfl (by omega)
  have h1 : getTotalCost (mkEngine (costLinear d y) 1 kM n) (k + 1) =
      D (costLinear d y) 1 n (k + 1) :=
    getTotalCost_eq _ _ _ _ (by omega)
  have h2 : getTotalCost (mkEngine (costLinear d y) 1 kM n) k =
      D (costLinear d y) 1 n k :=
    getTotalCost_eq _ _ _ _ (by omega)
  have hmono : D (costLinear d y) 1 n (k + 1) ≤ D (costLinear d y) 1 n k :=
    D_mono (costLinear d y) (costLinear_subadd d y) k n (by omega)
  have hsum : getSumOfCost (costLinear d y)
      (mkEngine (costLinear d y) 1 kM n) (k + 1) =
      D (costLinear d y) 1 n (k + 1) := by
    unfold getSumOfCost
    rw [mkEngine_n, walkTable_eq _ _ _ _ _ _ (by omega) le_rfl]
    exact segSum_backWalk _ le_rfl (k + 1) n (by omega)
  exact ⟨hfit, by rw [h1, h2]; exact hmono, by rw [h1]; exact hsum⟩

theorem claim1_witness :
    2 + 1 ≤ 3 ∧ 0 + 1 ≤ 2 ∧
    (fitEngine (costLinear 1 zsig) 1 2 3 =
        Except.ok (mkEngine (costLinear 1 zsig) 1 2 3) ∧
      getTotalCost (mkEngine (costLinear 1 zsig) 1 2 3) (0 + 1) ≤
        getTotalCost (mkEngine (costLinear 1 zsig) 1 2 3) 0 ∧
      getSumOfCost (costLinear 1 zsig)
          (mkEngine (costLinear 1 zsig) 1 2 3) (0 + 1) =
        getTotalCost (mkEngine (costLinear 1 zsig) 1 2 3) (0 + 1)) :=
  ⟨by decide, by decide,
    claim1_amended_monotone 1 3 2 0 zsig (by decide) (by decide)⟩

/-- **C2.** For every fitted engine and every `0 ≤ k ≤ k_max`, the list
returned by `predict(k)` is strictly increasing, contains exactly `k`
indices, every index lies strictly between `0` and `n` (neither `0`
nor `n` is reported), and every segment induced by consecutive cut
points (including the boundaries `0` and `n`) has length at least
`min_segment_length`. -/
theorem claim2_predict_valid (c : ℕ → ℕ → ℚ) (m kM n k : ℕ)
    (hm : 1 ≤ m) (hfeas : (kM + 1) * m ≤ n) (hk : k ≤ kM) :
    fitEngine c m kM n = Except.ok (mkEngine c m kM n) ∧
    predictE (some (mkEngine c m kM n)) k = Except.ok (backWalk c m n k) ∧
    (backWalk c m n k).length = k ∧
    List.Chain' (· < ·) (backWalk c m n k) ∧
    (∀ b ∈ backWalk c m n k, 0 < b ∧ b < n) ∧
    List.Chain' (fun x z => x + m ≤ z) (0 :: (backWalk c m n k ++ [n])) := by
  have hfk : (k + 1) * m ≤ n := by
    have h2 : (k + 1) * m ≤ (kM + 1) * m :=
      Nat.mul_le_mul_right m (by omega)
    omega
  obtain ⟨h1, h2, h3, h4⟩ := backWalk_props c hm hfk
  exact ⟨fitEngine_ok c hm hfeas, predictE_ok c hk, h1, h2, h3, h4⟩

theorem claim2_witness :
    (1 : ℕ) ≤ 1 ∧ (2 + 1) * 1 ≤ 4 ∧ 2 ≤ 2 ∧
    (fitEngine czero 1 2 4 = Except.ok (mkEngine czero 1 2 4) ∧
      predictE (some (mkEngine czero 1 2 4)) 2 =
        Except.ok (backWalk czero 1 4 2) ∧
      (backWalk czero 1 4 2).length = 2 ∧
      List.Chain' (· < ·) (backWalk czero 1 4 2) ∧
      (∀ b ∈ backWalk czero 1 4 2, 0 < b ∧ b < 4) ∧
      List.Chain' (fun x z => x + 1 ≤ z)
        (0 :: (backWalk czero 1 4 2 ++ [4]))) :=
  ⟨by decide, by decide, by decide,
    claim2_predict_valid czero 1 2 4 2 (by decide) (by decide) (by decide)⟩

/-- **C3.** After one `fit` with bound `k_max`, the table-based queries
for every `k ≤ k_max` coincide with a fresh run of the recursive
dynamic program for that `k` alone: `total_cost(k)` is a pure lookup
equal to `D[n][k]`, `predict(k)` is a pure backpointer walk equal to
the recursive reconstruction, and `get_sum_of_cost` re-derives the
same value; the queries are pure functions of the fitted state, so
repeated calls return identical results with no recomputation of the
table. -/
theorem claim3_queries_refine_dp (c : ℕ → ℕ → ℚ) (m kM n k : ℕ)
    (hm : 1 ≤ m) (hfeas : (kM + 1) * m ≤ n) (hk : k ≤ kM) :
    totalCostE (some (mkEngine c m kM n)) k = Except.ok (D c m n k) ∧
    predictE (some (mkEngine c m kM n)) k = Except.ok (backWalk c m n k) ∧
    getSumOfCost c (mkEngine c m kM n) k = D c m n k := by
  have hfk : (k + 1) * m ≤ n := by
    have h2 : (k + 1) * m ≤ (kM + 1) * m :=
      Nat.mul_le_mul_right m (by omega)
    omega
  refine ⟨totalCostE_ok c hk, predictE_ok c hk, ?_⟩
  unfold getSumOfCost
  rw [mkEngine_n, walkTable_eq _ _ _ _ _ _ hk le_rfl]
  exact segSum_backWalk _ hm k n hfk

theorem claim3_witness :
    (1 : ℕ) ≤ 1 ∧ (2 + 1) * 1 ≤ 4 ∧ 1 ≤ 2 ∧
    (totalCostE (some (mkEngine czero 1 2 4)) 1 =
        Except.ok (D czero 1 4 1) ∧
      predictE (some (mkEngine czero 1 2 4)) 1 =
        Except.ok (backWalk czero 1 4 1) ∧
      getSumOfCost czero (mkEngine czero 1 2 4) 1 = D czero 1 4 1) :=
  ⟨by decide, by decide, by decide,
    claim3_queries_refine_dp czero 1 2 4 1 (by decide) (by decide) (by decide)⟩

/-- **C4.** With the linear kernel, the cost of every non-empty segment
`[a, b)` — the centered sum
`Σ K(y_i,y_i) − (1/(b−a))·ΣΣ K(y_i,y_j)` — equals the sum of squared
deviations of the segment's vectors from the segment mean,
`Σ_t ‖y_t − ȳ‖²`. -/
theorem claim4_cost_formula (d : ℕ) (y : ℕ → Fin d → ℚ) {a b : ℕ}
    (hab : a < b) : costLinear d y a b = ssd d y a b :=
  costLinear_eq_ssd d y hab

theorem claim4_witness :
    0 < 2 ∧ costLinear 1 zsig 0 2 = ssd 1 zsig 0 2 :=
  ⟨by decide, claim4_cost_formula 1 zsig (by decide)⟩

/-- **C5.** For every fitted engine, `predict(0)` returns the empty
breakpoint list, and `total_cost(0)` equals the cost of the single
whole-sequence segment `[0, n)` computed directly by the cost
model. -/
theorem claim5_zero_breakpoints (c : ℕ → ℕ → ℚ) (m kM n : ℕ)
    (hm : 1 ≤ m) (hfeas : (kM + 1) * m ≤ n) :
    predictE (some (mkEngine c m kM n)) 0 = Except.ok [] ∧
    totalCostE (some (mkEngine c m kM n)) 0 = Except.ok (c 0 n) := by
  constructor
  · rw [predictE_ok c (Nat.zero_le kM)]
    rfl
  · rw [totalCostE_ok c (Nat.zero_le kM), D_zero]

theorem claim5_witness :
    (1 : ℕ) ≤ 1 ∧ (1 + 1) * 1 ≤ 2 ∧
    (predictE (some (mkEngine czero 1 1 2)) 0 = Except.ok [] ∧
      totalCostE (some (mkEngine czero 1 1 2)) 0 = Except.ok (czero 0 2)) :=
  ⟨by decide, by decide, claim5_zero_breakpoints czero 1 1 2 (by decide) (by decide)⟩

/-- **C6.** Determinism: the model is a pure function of its inputs —
two fits of the same input and configuration yield the same fitted
state and hence identical `predict`/`total_cost` results — and the
backpointer always records the smallest predecessor index achieving
the minimal cost (ties are broken toward the earliest cut). -/
theorem claim6_deterministic_tiebreak (c : ℕ → ℕ → ℚ) (m kM n k : ℕ)
    (e₁ e₂ : FittedEngine)
    (h₁ : fitEngine c m kM n = Except.ok e₁)
    (h₂ : fitEngine c m kM n = Except.ok e₂) :
    e₁ = e₂ ∧
    predictE (some e₁) k = predictE (some e₂) k ∧
    totalCostE (some e₁) k = totalCostE (some e₂) k ∧
    ∀ t j s, back c m t (j + 1) = some s →
      s ∈ preds m (j + 1) t ∧
      (∀ x ∈ preds m (j + 1) t,
        D c m s j + c s t ≤ D c m x j + c x t) ∧
      (∀ x ∈ preds m (j + 1) t,
        D c m x j + c x t ≤ D c m s j + c s t → s ≤ x) := by
  have he : e₁ = e₂ := Except.ok.inj (h₁.symm.trans h₂)
  subst he
  refine ⟨rfl, rfl, rfl, ?_⟩
  intro t j s hb
  have hb' : argminFirst (fun x => D c m x j + c x t)
      (preds m (j + 1) t) = some s := hb
  exact ⟨argminFirst_mem hb', argminFirst_le hb',
    fun x hx hle => argminFirst_leftmost preds_sorted hb' x hx hle⟩

theorem claim6_witness :
    fitEngine czero 1 1 2 = Except.ok (mkEngine czero 1 1 2) ∧
    (mkEngine czero 1 1 2 = mkEngine czero 1 1 2 ∧
      predictE (some (mkEngine czero 1 1 2)) 1 =
        predictE (some (mkEngine czero 1 1 2)) 1 ∧
      totalCostE (some (mkEngine czero 1 1 2)) 1 =
        totalCostE (some (mkEngine czero 1 1 2)) 1 ∧
      ∀ t j s, back czero 1 t (j + 1) = some s →
        s ∈ preds 1 (j + 1) t ∧
        (∀ x ∈ preds 1 (j + 1) t,
          D czero 1 s j + czero s t ≤ D czero 1 x j + czero x t) ∧
        (∀ x ∈ preds 1 (j + 1) t,
          D czero 1 x j + czero x t ≤ D czero 1 s j + czero s t → s ≤ x)) :=
  ⟨rfl, claim6_deterministic_tiebreak czero 1 1 2 1
    (mkEngine czero 1 1 2) (mkEngine czero 1 1 2) rfl rfl⟩

/-- **C7.** `predict(k)` and `total_cost(k)` with `k > k_max` fail with
`OutOfRange`; calling them before `fit` fails with `NotFitted`; and
the failing call leaves the fitted state untouched — an in-range query
on the same engine still succeeds with the fitted result. -/
theorem claim7_error_handling (c : ℕ → ℕ → ℚ) (m kM n k : ℕ)
    (hm : 1 ≤ m) (hfeas : (kM + 1) * m ≤ n) (hk : kM < k) :
    predictE (some (mkEngine c m kM n)) k =
      Except.error SegError.OutOfRange ∧
    totalCostE (some (mkEngine c m kM n)) k =
      Except.error SegError.OutOfRange ∧
    predictE none k = Except.error SegError.NotFitted ∧
    totalCostE none k = Except.error SegError.NotFitted ∧
    predictE (some (mkEngine c m kM n)) kM =
      Except.ok (backWalk c m n kM) := by
  refine ⟨?_, ?_, rfl, rfl, predictE_ok c le_rfl⟩
  · show (if (mkEngine c m kM n).kMax < k then
        (Except.error SegError.OutOfRange : Except SegError (List ℕ))
      else Except.ok (walkTable (mkEngine c m kM n) (mkEngine c m kM n).n k)) = _
    rw [mkEngine_kMax, if_pos hk]
  · show (if (mkEngine c m kM n).kMax < k then
        (Except.error SegError.OutOfRange : Except SegError ℚ)
      else Except.ok (getTotalCost (mkEngine c m kM n) k)) = _
    rw [mkEngine_kMax, if_pos hk]

theorem claim7_witness :
    (1 : ℕ) ≤ 1 ∧ (3 + 1) * 1 ≤ 4 ∧ 3 < 5 ∧
    (predictE (some (mkEngine czero 1 3 4)) 5 =
        Except.error SegError.OutOfRange ∧
      totalCostE (some (mkEngine czero 1 3 4)) 5 =
        Except.error SegError.OutOfRange ∧
      predictE none 5 = Except.error SegError.NotFitted ∧
      totalCostE none 5 = Except.error SegError.NotFitted ∧
      predictE (some (mkEngine czero 1 3 4)) 3 =
        Except.ok (backWalk czero 1 4 3)) :=
  ⟨by decide, by decide, by decide,
    claim7_error_handling czero 1 3 4 5 (by decide) (by decide) (by decide)⟩

/-- **C8 (counterexample).** The claim that the list returned by
`get_bkps` always ends with the sentinel `n` is false for the
spec-modelled engine, which reports only interior breakpoints: on the
two-frame zero signal with `n_bkps = 1`, `get_bkps` returns `[1]`,
whose last element `1` is not the sequence length `2`. -/
theorem claim8_counterexample :
    getBkps ⟨1, 2, zsig⟩ 1 = Except.ok [1] ∧ (1 : ℕ) ≠ 2 :=
  ⟨rfl, by decide⟩

/-- **C8 (amended).** For every signal and every requested breakpoint
count `k ≥ 1` (with a feasible fit), `get_bkps` succeeds and returns a
non-empty list of exactly `k` breakpoints, each strictly between `0`
and `n`; in particular its last element is a true breakpoint strictly
smaller than `n` — no sentinel equal to the sequence length is
appended. -/
theorem claim8_amended_interior (s : Sig) (k : ℕ) (hk : 1 ≤ k)
    (hfeas : k + 1 ≤ s.n) :
    getBkps s k = Except.ok (backWalk (costLinear s.d s.y) 1 s.n k) ∧
    (backWalk (costLinear s.d s.y) 1 s.n k).length = k ∧
    backWalk (costLinear s.d s.y) 1 s.n k ≠ [] ∧
    (∀ b ∈ backWalk (costLinear s.d s.y) 1 s.n k, 0 < b ∧ b < s.n) := by
  have hfk : (k + 1) * 1 ≤ s.n := by omega
  obtain ⟨hlen, _, hmem, _⟩ := backWalk_props (costLinear s.d s.y) le_rfl hfk
  refine ⟨?_, hlen, ?_, hmem⟩
  · unfold getBkps
    rw [fitEngine_ok _ le_rfl hfk]
    show predictE (some (mkEngine (costLinear s.d s.y) 1 k s.n)) k = _
    exact predictE_ok _ le_rfl
  · intro hnil
    rw [hnil] at hlen
    simp at hlen
    omega

theorem claim8_witness :
    (1 : ℕ) ≤ 1 ∧ 1 + 1 ≤ (Sig.mk 1 3 zsig).n ∧
    (getBkps (Sig.mk 1 3 zsig) 1 =
        Except.ok (backWalk (costLinear 1 zsig) 1 3 1) ∧
      (backWalk (costLinear 1 zsig) 1 3 1).length = 1 ∧
      backWalk (costLinear 1 zsig) 1 3 1 ≠ [] ∧
      (∀ b ∈ backWalk (costLinear 1 zsig) 1 3 1, 0 < b ∧ b < 3)) :=
  ⟨by decide, by decide, claim8_amended_interior ⟨1, 3, zsig⟩ 1 (by decide) (by decide)⟩

/-- **C9.** `ChangePointDetector.predict` returns one segmentation per
input signal, in order: the output has the same length as the input
and its `i`-th entry is `get_bkps` of the `i`-th input with the
configured `n_bkps`; `TempogramTransformer.transform` satisfies the
same one-output-per-input, order-preserving property. -/
theorem claim9_one_output_per_input (det : ChangePointDetector)
    (X : List Sig) (g : ℕ → Sig → Sig) (tr : TempogramTransformer)
    (Xs : List Sig) :
    (det.predict X).length = X.length ∧
    (∀ i : ℕ, (det.predict X)[i]? =
      (X[i]?).map (fun s => getBkps s det.n_bkps)) ∧
    (TempogramTransformer.transform g tr Xs).length = Xs.length ∧
    (∀ i : ℕ, (TempogramTransformer.transform g tr Xs)[i]? =
      (Xs[i]?).map (g tr.hop_length_tempo)) := by
  have hp : det.predict X = X.map (fun s => getBkps s det.n_bkps) := by
    unfold ChangePointDetector.predict
    rw [foldl_append_eq_map]
    rfl
  have htr : TempogramTransformer.transform g tr Xs =
      Xs.map (g tr.hop_length_tempo) := by
    unfold TempogramTransformer.transform
    rw [foldl_append_eq_map]
    rfl
  refine ⟨?_, ?_, ?_, ?_⟩ <;> simp [hp, htr]

/-- **C10.** `TempogramTransformer.fit` and `ChangePointDetector.fit`
are no-ops: they return the estimator itself with every field
unchanged, so later `transform`/`predict` results are independent of
whether `fit` was called and of its arguments. -/
theorem claim10_fit_noop (tr : TempogramTransformer)
    (det : ChangePointDetector) (X X' : Option (List Sig))
    (y y' : Option (List ℚ)) (g : ℕ → Sig → Sig) (Xs : List Sig) :
    TempogramTransformer.fit tr X y = tr ∧
    (TempogramTransformer.fit tr X y).hop_length_tempo =
      tr.hop_length_tempo ∧
    ChangePointDetector.fit det X' y' = det ∧
    (ChangePointDetector.fit det X' y').n_bkps = det.n_bkps ∧
    TempogramTransformer.transform g (TempogramTransformer.fit tr X y) Xs =
      TempogramTransformer.transform g tr Xs ∧
    ChangePointDetector.predict (ChangePointDetector.fit det X' y') Xs =
      ChangePointDetector.predict det Xs :=
  ⟨rfl, rfl, rfl, rfl, rfl, rfl⟩

end MusicSeg
